import Mathlib

/-!
Verification development for `folca` (src/main.rs), a folder-based command cache.

The Rust source is shallowly embedded below:
* machine integers (`u64`) are `Nat` with explicit `% 2 ^ 64` where overflow matters;
* the `DefaultHasher` used by `Opt::command_input_key` is modelled as SipHash-1-3
  with both keys zero (the standard-library implementation behind `DefaultHasher`),
  applied to the concatenation of all bytes written to it;
* filesystem and process effects are made explicit: fallible I/O operations are
  parameterised by boolean oracles recording whether the corresponding syscall
  succeeds, and `main`'s control flow is a pure function from such an environment
  to a record of the run's observable outcome.
-/

namespace Folca

/-! ## 64-bit arithmetic helpers -/

/-- Wrapping 64-bit addition, as performed by `u64` arithmetic inside SipHash. -/
def wadd (a b : Nat) : Nat := (a + b) % 2 ^ 64

/-- Bitwise xor; operands are kept below `2 ^ 64` so no masking is needed. -/
def wxor (a b : Nat) : Nat := Nat.xor a b

/-- 64-bit left rotation by `r` bits (`u64::rotate_left`). -/
def rotl (a r : Nat) : Nat := ((a <<< r) % 2 ^ 64) ||| (a >>> (64 - r))

/-! ## SipHash-1-3 (the algorithm behind `std::collections::hash_map::DefaultHasher`)

`DefaultHasher::new()` is `SipHasher13::new_with_keys(0, 0)`.  Raw `Hasher::write`
calls append bytes to the hasher's input stream with no framing, so the final
`finish()` value is a function of the concatenation of all written byte slices.
We embed the full algorithm so that the hash is a concrete executable function
of that byte stream. -/

structure SipState where
  v0 : Nat
  v1 : Nat
  v2 : Nat
  v3 : Nat
  deriving DecidableEq

/-- One SipHash round. -/
def sipRound (s : SipState) : SipState :=
  let v0 := wadd s.v0 s.v1
  let v1 := rotl s.v1 13
  let v1 := wxor v1 v0
  let v0 := rotl v0 32
  let v2 := wadd s.v2 s.v3
  let v3 := rotl s.v3 16
  let v3 := wxor v3 v2
  let v0 := wadd v0 v3
  let v3 := rotl v3 21
  let v3 := wxor v3 v0
  let v2 := wadd v2 v1
  let v1 := rotl v1 17
  let v1 := wxor v1 v2
  let v2 := rotl v2 32
  ⟨v0, v1, v2, v3⟩

/-- Compression of one 8-byte little-endian word (SipHash-1-3: one round per word). -/
def sipCompress (s : SipState) (m : Nat) : SipState :=
  let s := { s with v3 := wxor s.v3 m }
  let s := sipRound s
  { s with v0 := wxor s.v0 m }

/-- Little-endian value of a byte list (first byte is least significant). -/
def leWord (bytes : List Nat) : Nat := bytes.foldr (fun b acc => b + 256 * acc) 0

/-- The complete 8-byte words of a byte stream, in order. -/
def toBlocks : List Nat → List Nat
  | b0 :: b1 :: b2 :: b3 :: b4 :: b5 :: b6 :: b7 :: rest =>
    leWord [b0, b1, b2, b3, b4, b5, b6, b7] :: toBlocks rest
  | _ => []

/-- The trailing bytes of a stream after all complete 8-byte words. -/
def tailBytes : List Nat → List Nat
  | _ :: _ :: _ :: _ :: _ :: _ :: _ :: _ :: rest => tailBytes rest
  | l => l

/-- SipHash-1-3 with key `(0, 0)` of a byte stream: the value of
`DefaultHasher::finish` after writing exactly `bytes`. -/
def sipHash13 (bytes : List Nat) : Nat :=
  let s0 : SipState :=
    ⟨0x736f6d6570736575, 0x646f72616e646f6d, 0x6c7967656e657261, 0x7465646279746573⟩
  let s1 := (toBlocks bytes).foldl sipCompress s0
  let b := ((bytes.length % 256) <<< 56) ||| leWord (tailBytes bytes)
  let s2 := sipCompress s1 b
  let s3 := { s2 with v2 := wxor s2.v2 0xff }
  let s4 := sipRound (sipRound (sipRound s3))
  wxor (wxor s4.v0 s4.v1) (wxor s4.v2 s4.v3)

/-! ## Cache keys and inventory entries -/

/-- Rust struct `CommandInputHashes`; both fields are `u64`. -/
structure CommandInputHashes where
  command_hash : Nat
  input_hash : Nat
  deriving DecidableEq

/-- Rust struct `LastUsedAndSize`; `last_used : SystemTime` is modelled as a
natural-number timestamp, `size : u64` as a natural number. -/
structure LastUsedAndSize where
  last_used : Nat
  size : Nat
  deriving DecidableEq

/-- One inventory entry.  The in-memory `HashMap<CommandInputHashes, LastUsedAndSize>`
is modelled as an association list whose order records the map's iteration order;
the map property itself is the `keysNodup` predicate below. -/
abbrev Entry := CommandInputHashes × LastUsedAndSize

/-- Keys of a `HashMap` are pairwise distinct. -/
abbrev keysNodup (inv : List Entry) : Prop := (inv.map (·.1)).Nodup

/-- Sum of the `size` fields of a list of entries. -/
def sumSizes (inv : List Entry) : Nat := (inv.map (·.2.size)).sum

/-- Lookup in the modelled `HashMap` (`self.inv.get`/`get_mut`): the first entry
with the given key. -/
def lookupKey (k : CommandInputHashes) : List Entry → Option LastUsedAndSize
  | [] => none
  | e :: t => if e.1 = k then some e.2 else lookupKey k t

/-- Removal from the modelled `HashMap` (`self.inv.remove`): drops the first
entry with the given key. -/
def removeKey (k : CommandInputHashes) : List Entry → List Entry
  | [] => []
  | e :: t => if e.1 = k then t else e :: removeKey k t

/-- Update `last_used` of the entry with key `k` to `now` (the effect of
`val.last_used = SystemTime::now()` through `get_mut`). -/
def touchKey (k : CommandInputHashes) (now : Nat) (inv : List Entry) : List Entry :=
  inv.map fun e => if e.1 = k then (e.1, { e.2 with last_used := now }) else e

/-! ## Stable sorting (`Vec::sort_by`)

`Vec::sort_by` is a stable sort.  For a comparator that is a total preorder the
result of any stable sort is uniquely determined, so it is modelled by a stable
insertion sort: a new element is inserted before the first element that must
come strictly after it. -/

/-- Insert `a` into `l`, skipping every element `b` with `lt b a` (i.e. every
element the comparator orders strictly before `a`).  Keeping `a` before equal
elements already in `l` is exactly stability for an element that originally
preceded them. -/
def insertStable (lt : α → α → Bool) (a : α) : List α → List α
  | [] => [a]
  | b :: t => if lt b a then b :: insertStable lt a t else a :: b :: t

/-- Stable insertion sort with strict comparator `lt`. -/
def sortByStable (lt : α → α → Bool) : List α → List α
  | [] => []
  | a :: t => insertStable lt a (sortByStable lt t)

/-! ## Fingerprint engine (`Opt::command_input_key`) -/

/-- Command part of `Opt::command_input_key`: every argument's bytes are fed to a
fresh `DefaultHasher` via raw `Hasher::write` calls — with no length framing or
separator between arguments — and the hash is `finish()` of that stream, i.e.
SipHash-1-3 of the concatenation of the arguments' bytes.  Arguments are given as
their byte sequences. -/
def command_hash_of (command : List (List Nat)) : Nat :=
  sipHash13 command.flatten

/-- An entry of the input tree as seen by the `ignore` crate's `WalkBuilder`:
its path bytes, whether it is a directory, its content bytes (for files), and
which of the crate's standard filters would match it. -/
structure WalkEntry where
  path : List Nat
  is_dir : Bool
  content : List Nat
  hidden : Bool
  dot_ignored : Bool
  git_ignored : Bool
  git_excluded : Bool
  deriving DecidableEq

/-- Whether the walk configured in `Opt::command_input_key` yields an entry.
The source configures `WalkBuilder::new(input_path).hidden(include_hidden)
.git_exclude(respect_ignore)`.  In the `ignore` crate, `hidden(yes)` ENABLES
skipping of hidden entries (enabled by default), and `git_exclude(yes)` enables
`.git/info/exclude` rules; the `.ignore` and `.gitignore` filters (`ignore`,
`git_ignore`) are left at their crate defaults, which are enabled.  So the
source skips hidden entries exactly when `include_hidden` is set. -/
def walk_keeps (include_hidden respect_ignore : Bool) (e : WalkEntry) : Bool :=
  !(include_hidden && e.hidden) && !e.dot_ignored && !e.git_ignored &&
    !(respect_ignore && e.git_excluded)

/-- Strict lexicographic order on path byte strings, the comparator passed to
`sort_by_file_path(|p1, p2| p1.cmp(p2))`. -/
def pathLt : List Nat → List Nat → Bool
  | [], [] => false
  | [], _ :: _ => true
  | _ :: _, [] => false
  | a :: s, b :: t => if a < b then true else if b < a then false else pathLt s t

/-- The byte stream fed to the input hasher by `Opt::command_input_key`: for every
entry the walk yields, in lexicographic path order, the path bytes, followed by
the full file content (streamed in 125000-byte chunks, which leaves the
concatenated stream unchanged) when the entry is a regular file. -/
def input_stream (include_hidden respect_ignore : Bool) (tree : List WalkEntry) : List Nat :=
  ((sortByStable (fun x y => pathLt x.path y.path)
      (tree.filter (walk_keeps include_hidden respect_ignore))).map
    fun e => e.path ++ if e.is_dir then [] else e.content).flatten

/-- Input part of `Opt::command_input_key`: `finish()` of the hasher fed by
`input_stream`. -/
def input_hash_of (include_hidden respect_ignore : Bool) (tree : List WalkEntry) : Nat :=
  sipHash13 (input_stream include_hidden respect_ignore tree)

/-! ## Address scheme (`Inventory::to_path`) and reconciliation parse (`Inventory::load_entry`)

`to_path` builds `<cache_path>/<{:x} of command_hash>/<{:x} of input_hash>` and then
calls `PathBuf::set_extension("tar.gz")`.  Rust's `{:x}` formatting of a `u64` is
lowercase hexadecimal with no leading zeros, which is exactly `Nat.toDigits 16`. -/

/-- Chars of the final `.<suffix>` of a file name dropped, keeping the stem
(used when the name already has an extension). -/
def dropExtSuffix (name : List Char) : List Char :=
  ((name.reverse.dropWhile (fun c => c ≠ '.')).drop 1).reverse

/-- Rust `Path::file_stem`: a file name has an extension exactly when a `'.'`
occurs after its first character; the stem is everything before the last `'.'`,
otherwise the whole name. -/
def fileStem (name : List Char) : List Char :=
  if (name.drop 1).contains '.' then dropExtSuffix name else name

/-- Rust `PathBuf::set_extension("tar.gz")` applied to a file name: the stem
followed by `".tar.gz"`. -/
def setTarGz (name : List Char) : List Char :=
  fileStem name ++ ".tar.gz".toList

/-- `Inventory::to_path`, rendered as the string `to_string_lossy` produces in
`Inventory::load_entry` (all components are ASCII, so lossless):
`cache_path.join(format("{:x}", command_hash)).join(format("{:x}", input_hash))`
with extension set to `tar.gz`. -/
def to_path (cache_path : String) (key : CommandInputHashes) : String :=
  cache_path ++ "/" ++ String.mk (Nat.toDigits 16 key.command_hash) ++ "/" ++
    String.mk (setTarGz (Nat.toDigits 16 key.input_hash))

/-- Character class of the bracket expression in `Inventory::load`'s pattern.
The pattern's class is written as a nested bracket expression containing `:`,
the range `a-z` and the range `0-9` (the regex crate falls back to a nested
class because the would-be POSIX class name is invalid). -/
def isClassChar (c : Char) : Bool :=
  c = ':' || ('a' ≤ c && c ≤ 'z') || ('0' ≤ c && c ≤ '9')

/-- Match of the pattern's 7-character tail: any char, `t`, `a`, `r`, any char,
`g`, `z` (the two dots in the pattern are unescaped wildcards). -/
def tail7Matches : List Char → Bool
  | [_, c2, c3, c4, _, c6, c7] =>
    c2 = 't' && c3 = 'a' && c4 = 'r' && c6 = 'g' && c7 = 'z'
  | _ => false

/-- Capture extraction of `Inventory::load`'s regex, anchored at the end by `$`
with a greedy leading wildcard: the string must end in `/`, a nonempty run of
class characters (group 1, necessarily the characters after the rightmost
earlier `/`), `/`, exactly 16 class characters (group 2), and the 7-character
tail.  Group positions counted from the end are forced by the fixed-length
suffix; greediness forces group 1 to start right after the last possible `/`. -/
def regexCaptures (s : List Char) : Option (List Char × List Char) :=
  let n := s.length
  if n < 26 then none
  else if !tail7Matches (s.drop (n - 7)) then none
  else
    let g2 := (s.drop (n - 23)).take 16
    if !g2.all isClassChar then none
    else if (s.drop (n - 24)).headD ' ' ≠ '/' then none
    else
      let before := s.take (n - 24)
      if before.contains '/' then
        let g1 := (before.reverse.takeWhile (fun c => c ≠ '/')).reverse
        if !g1.isEmpty && g1.all isClassChar then some (g1, g2) else none
      else none

/-- Value of one hexadecimal digit character, as in `char::to_digit(16)`. -/
def hexDigitVal (c : Char) : Option Nat :=
  if '0' ≤ c ∧ c ≤ '9' then some (c.toNat - 48)
  else if 'a' ≤ c ∧ c ≤ 'f' then some (c.toNat - 87)
  else if 'A' ≤ c ∧ c ≤ 'F' then some (c.toNat - 55)
  else none

/-- Accumulating hexadecimal evaluation of a digit string. -/
def hexValAux : List Char → Nat → Option Nat
  | [], acc => some acc
  | c :: t, acc =>
    match hexDigitVal c with
    | none => none
    | some d => hexValAux t (acc * 16 + d)

/-- Rust `u64::from_str_radix(s, 16)`: an optional leading `+`, then a nonempty
string of hexadecimal digits; errors on an empty digit string, a non-digit, or
overflow past `u64::MAX` (modelled by the final bound check, which accepts and
rejects exactly the same strings as Rust's per-step overflow check). -/
def from_str_radix16 (s : List Char) : Option Nat :=
  let digits := match s with
    | '+' :: rest => rest
    | other => other
  if digits.isEmpty then none
  else
    match hexValAux digits 0 with
    | none => none
    | some v => if v < 2 ^ 64 then some v else none

/-- Parsing part of `Inventory::load_entry`: run the reconciliation regex over
the path string and decode both captures with `from_str_radix(_, 16)`.  `none`
models the error path (entry skipped with a warning by `Inventory::load`). -/
def load_entry_parse (path : String) : Option (Nat × Nat) :=
  match regexCaptures path.toList with
  | none => none
  | some (g1, g2) =>
    match from_str_radix16 g1, from_str_radix16 g2 with
    | some ch, some ih => some (ch, ih)
    | _, _ => none

/-! ## Eviction (`Inventory::discard_until`) -/

/-- Success/failure oracles for the filesystem calls made while evicting one
entry: `removeOk` for `fs::remove_file` on the entry's archive, `cleanupOk`
for the `fs::read_dir`/`fs::remove_dir` shard-directory cleanup that follows. -/
structure FsModel where
  removeOk : CommandInputHashes → Bool
  cleanupOk : CommandInputHashes → Bool

/-- Outcome of `Inventory::discard_until`: success carries the remaining
inventory and the evicted entries in eviction order; `ioError` is the `Err`
propagated from a filesystem call; `panicked` is the `expect` panic on popping
an empty entry vector. -/
inductive DiscardResult where
  | ok (inv : List Entry) (removed : List Entry)
  | ioError
  | panicked
  deriving DecidableEq

/-- Eviction loop of `Inventory::discard_until`.  The source keeps
`cache_entries` sorted by strictly decreasing `last_used` and pops from the
end of the vector; `stack` here is that vector reversed (oldest entry first),
so `Vec::pop` is head consumption.  Each iteration removes the popped key from
the inventory map, deletes its archive file, cleans up its shard directory if
empty, and subtracts its size from the running total. -/
def discardLoop (fs : FsModel) (output_size limit : Nat) :
    Nat → List Entry → List Entry → List Entry → DiscardResult
  | cache_size, [], inv, removed =>
    if output_size + cache_size ≥ limit then .panicked else .ok inv removed
  | cache_size, (key, value) :: rest, inv, removed =>
    if output_size + cache_size ≥ limit then
      if fs.removeOk key then
        if fs.cleanupOk key then
          discardLoop fs output_size limit (cache_size - value.size) rest
            (removeKey key inv) (removed ++ [(key, value)])
        else .ioError
      else .ioError
    else .ok inv removed

/-- `Inventory::discard_until(output_size, limit)`.  If the output alone
reaches the limit it returns `Ok(())` at once (logging "Output is larger than
cache size, will not cache") without touching anything; otherwise it sums all
entry sizes, sorts the entries by decreasing `last_used` (`Vec::sort_by` with
the reversed comparator, a stable sort) and runs the eviction loop. -/
def discard_until (fs : FsModel) (output_size limit : Nat) (inv : List Entry) :
    DiscardResult :=
  if output_size ≥ limit then .ok inv []
  else
    let cache_size := sumSizes inv
    let cache_entries :=
      sortByStable (fun x y => decide (y.2.last_used < x.2.last_used)) inv
    discardLoop fs output_size limit cache_size cache_entries.reverse inv []

/-! ## Restore (`Inventory::try_restore_from_cache`) and the orchestrator (`main`) -/

/-- `Inventory::try_restore_from_cache`: when the key is in the inventory and
this is not a dry run, open/decode/unpack the archive (`unpack_ok` records
whether that I/O pipeline succeeds; failures are logged and produce `false`);
`last_used` is set to now only on success.  On a dry run or a missing key the
function returns `false` leaving the inventory untouched. -/
def try_restore_from_cache (inv : List Entry) (key : CommandInputHashes)
    (dry_run unpack_ok : Bool) (now : Nat) : Bool × List Entry :=
  match lookupKey key inv with
  | some _ =>
    if !dry_run then
      if unpack_ok then (true, touchKey key now inv) else (false, inv)
    else (false, inv)
  | none => (false, inv)

/-- Environment of one `main` invocation: the option values, the computed key
(`none` models a fingerprinting failure), the loaded inventory, and oracles for
every fallible external step: archive unpack on restore, child spawn, child
success and exit code, `output_size` traversal, eviction filesystem calls, and
`write_to_cache` packing. -/
structure RunEnv where
  dry_run : Bool
  key : Option CommandInputHashes
  inventory : Option (List Entry)
  unpack_ok : Bool
  spawn_ok : Bool
  child_success : Bool
  child_code : Nat
  output_size : Option Nat
  max_cache_size : Nat
  fs : FsModel
  pack_ok : Bool
  now : Nat

/-- How the process terminates: `success` is `main` returning `Ok(())` (exit
code 0), `childExit` is `std::process::exit` with the child's code, `mainError`
is `main` returning `Err` (a nonzero exit), `panicked` is a panic. -/
inductive Outcome where
  | success
  | childExit (code : Nat)
  | mainError
  | panicked
  deriving DecidableEq

/-- Observable result of one run of `main`: its termination, whether the child
command was executed, the final in-memory inventory, the keys whose archive
file `write_to_cache` wrote, and the entries evicted (whose archives were
deleted) by `discard_until`. -/
structure RunResult where
  outcome : Outcome
  commandRan : Bool
  restored : Bool
  finalInv : Option (List Entry)
  archiveWrites : List CommandInputHashes
  evicted : List Entry
  deriving DecidableEq

/-- Lines 64-72 of `main`: with an inventory and a key in hand, compute the
output size (`?` on failure), and unless this is a dry run evict with
`discard_until` (`?`) and pack the output at the key's path with
`write_to_cache` (`?`).  `write_to_cache` never inserts an inventory entry; it
only writes the archive file. -/
def mainEpilogue (env : RunEnv) (key : Option CommandInputHashes)
    (inv : Option (List Entry)) (ran : Bool) : RunResult :=
  match inv, key with
  | some inv, some k =>
    match env.output_size with
    | none => ⟨.mainError, ran, false, some inv, [], []⟩
    | some os =>
      if !env.dry_run then
        match discard_until env.fs os env.max_cache_size inv with
        | .panicked => ⟨.panicked, ran, false, some inv, [], []⟩
        | .ioError => ⟨.mainError, ran, false, some inv, [], []⟩
        | .ok inv2 removed =>
          if env.pack_ok then ⟨.success, ran, false, some inv2, [k], removed⟩
          else ⟨.mainError, ran, false, some inv2, [k], removed⟩
      else ⟨.success, ran, false, some inv, [], []⟩
  | inv, _ => ⟨.success, ran, false, inv, [], []⟩

/-- Lines 51-62 of `main`: unless this is a dry run, spawn the command (`?` on
spawn failure); a nonzero child exit terminates the process with the child's
code (`exit_status.code().unwrap_or(0)`) and no caching; otherwise fall through
to the epilogue. -/
def mainCommandPhase (env : RunEnv) (key : Option CommandInputHashes)
    (inv : Option (List Entry)) : RunResult :=
  if !env.dry_run then
    if !env.spawn_ok then ⟨.mainError, false, false, inv, [], []⟩
    else if !env.child_success then ⟨.childExit env.child_code, true, false, inv, [], []⟩
    else mainEpilogue env key inv true
  else mainEpilogue env key inv false

/-- The whole of `main` after option parsing and `Inventory::load`: try a cache
restore when both a key and an inventory exist (returning `Ok(())` on a hit),
then run the command phase and the caching epilogue. -/
def mainModel (env : RunEnv) : RunResult :=
  match env.key, env.inventory with
  | some k, some inv =>
    let r := try_restore_from_cache inv k env.dry_run env.unpack_ok env.now
    if r.1 then ⟨.success, false, true, some r.2, [], []⟩
    else mainCommandPhase env (some k) (some r.2)
  | k, i => mainCommandPhase env k i

/-! ## Helper lemmas -/

theorem insertStable_perm (lt : α → α → Bool) (a : α) (l : List α) :
    List.Perm (insertStable lt a l) (a :: l) := by
  induction l with
  | nil => simp [insertStable]
  | cons b t ih =>
    by_cases h : lt b a
    · simpa [insertStable, h] using ((ih.cons b).trans (List.Perm.swap a b t))
    · simp [insertStable, h]

theorem sortByStable_perm (lt : α → α → Bool) (l : List α) :
    List.Perm (sortByStable lt l) l := by
  induction l with
  | nil => simp [sortByStable]
  | cons a t ih =>
    exact (insertStable_perm lt a (sortByStable lt t)).trans (ih.cons a)

theorem sumSizes_perm {l₁ l₂ : List Entry} (h : List.Perm l₁ l₂) :
    sumSizes l₁ = sumSizes l₂ := by
  unfold sumSizes
  exact (h.map (·.2.size)).sum_eq

theorem sumSizes_cons (e : Entry) (l : List Entry) :
    sumSizes (e :: l) = e.2.size + sumSizes l := by
  simp [sumSizes]

theorem removeKey_sublist (k : CommandInputHashes) (l : List Entry) :
    List.Sublist (removeKey k l) l := by
  induction l with
  | nil => simp [removeKey]
  | cons e t ih =>
    by_cases h : e.1 = k
    · simp only [removeKey, h, if_pos]
      exact List.sublist_cons_self e t
    · simpa [removeKey, h] using ih.cons₂ e

theorem keysNodup_removeKey (k : CommandInputHashes) {l : List Entry}
    (h : keysNodup l) : keysNodup (removeKey k l) := by
  unfold keysNodup at h ⊢
  exact ((removeKey_sublist k l).map (·.1)).nodup h

/-- In a map with distinct keys, removing the key of a present entry splits the
list as that entry plus the rest, up to permutation. -/
theorem perm_cons_removeKey {inv : List Entry} {a : Entry}
    (hn : keysNodup inv) (ha : a ∈ inv) :
    List.Perm inv (a :: removeKey a.1 inv) := by
  induction inv with
  | nil => cases ha
  | cons e t ih =>
    rcases List.mem_cons.mp ha with rfl | hat
    · simp [removeKey]
    · have he : ¬ e.1 = a.1 := by
        intro h1
        have hm : a.1 ∈ t.map (·.1) := List.mem_map_of_mem (·.1) hat
        rw [← h1] at hm
        exact (List.nodup_cons.mp hn).1 hm
      have ht : keysNodup t := (List.nodup_cons.mp hn).2
      have step1 : List.Perm (e :: t) (e :: a :: removeKey a.1 t) :=
        (ih ht hat).cons e
      have step2 : List.Perm (e :: a :: removeKey a.1 t) (a :: e :: removeKey a.1 t) :=
        List.Perm.swap a e _
      have step3 : a :: e :: removeKey a.1 t = a :: removeKey a.1 (e :: t) := by
        simp [removeKey, he]
      exact step3 ▸ (step1.trans step2)

/-- Specification of the eviction loop on success: the evicted entries are the
already-evicted accumulator followed by a prefix of the stack, the returned
inventory is a permutation of the unpopped part of the stack, the exit state
satisfies the budget, and the loop condition still held just before the final
eviction. -/
theorem discardLoop_ok_spec (fs : FsModel) (os limit : Nat) :
    ∀ (stack : List Entry) (cs : Nat) (inv removed inv2 removed2 : List Entry),
      List.Perm stack inv → keysNodup inv → cs = sumSizes stack →
      discardLoop fs os limit cs stack inv removed = .ok inv2 removed2 →
      ∃ k, removed2 = removed ++ stack.take k ∧
        List.Perm inv2 (stack.drop k) ∧
        os + sumSizes (stack.drop k) < limit ∧
        ∀ e, (stack.take k).getLast? = some e →
          limit ≤ os + sumSizes (stack.drop k) + e.2.size := by
  intro stack
  induction stack with
  | nil =>
    intro cs inv removed inv2 removed2 hperm hn hcs h
    by_cases hc : os + cs ≥ limit
    · simp [discardLoop, hc] at h
    · simp only [discardLoop, if_neg hc, DiscardResult.ok.injEq] at h
      refine ⟨0, by simp [h.2.symm], ?_, ?_, by simp⟩
      · rw [← h.1]
        simpa using hperm.symm
      · have h0 : cs = 0 := by simpa [sumSizes] using hcs
        simp only [List.drop_nil, sumSizes, List.map_nil, List.sum_nil]
        omega
  | cons a rest ih =>
    intro cs inv removed inv2 removed2 hperm hn hcs h
    obtain ⟨key, value⟩ := a
    by_cases hc : os + cs ≥ limit
    · by_cases hr : fs.removeOk key
      · by_cases hcl : fs.cleanupOk key
        · simp only [discardLoop, if_pos hc, if_pos hr, if_pos hcl] at h
          have ha : ((key, value) : Entry) ∈ inv :=
            hperm.subset (List.mem_cons_self _ _)
          have hpc : List.Perm inv ((key, value) :: removeKey key inv) :=
            perm_cons_removeKey hn ha
          have hrest : List.Perm rest (removeKey key inv) :=
            (hperm.trans hpc).cons_inv
          have hcs2 : cs = value.size + sumSizes rest := by
            rw [hcs, sumSizes_cons]
          have hcs' : cs - value.size = sumSizes rest := by omega
          obtain ⟨k, hrem, hp2, hbud, hlast⟩ :=
            ih (cs - value.size) (removeKey key inv) (removed ++ [(key, value)])
              inv2 removed2 hrest (keysNodup_removeKey key hn) hcs' h
          refine ⟨k + 1, ?_, ?_, ?_, ?_⟩
          · simp [hrem, List.take_succ_cons]
          · simpa [List.drop_succ_cons] using hp2
          · simpa [List.drop_succ_cons] using hbud
          · intro e he
            rw [List.take_succ_cons] at he
            rcases htk : rest.take k with _ | ⟨b, t⟩
            · rw [htk] at he
              simp only [List.getLast?_singleton, Option.some.injEq] at he
              have hdr : rest.drop k = rest := by
                rcases List.take_eq_nil_iff.mp htk with rfl | rfl
                · simp
                · simp
              rw [List.drop_succ_cons, hdr, ← he]
              show limit ≤ os + sumSizes rest + value.size
              omega
            · rw [htk, List.getLast?_cons_cons] at he
              rw [List.drop_succ_cons]
              exact hlast e (htk ▸ he)
        · simp [discardLoop, hc, hr, hcl] at h
      · simp [discardLoop, hc, hr] at h
    · simp only [discardLoop, if_neg hc, DiscardResult.ok.injEq] at h
      refine ⟨0, by simp [h.2.symm], ?_, ?_, by simp⟩
      · rw [← h.1]
        exact hperm.symm
      · rw [List.drop_zero, ← hcs]
        omega

/-- The eviction loop never pops an empty vector when the prospective output
alone fits the budget: the running `cache_size` always equals the sum of the
sizes of the entries still on the stack, so an empty stack forces the loop
condition to be false. -/
theorem discardLoop_ne_panicked (fs : FsModel) (os limit : Nat) (hlt : os < limit) :
    ∀ (stack : List Entry) (cs : Nat) (inv removed : List Entry),
      cs = sumSizes stack →
      discardLoop fs os limit cs stack inv removed ≠ .panicked := by
  intro stack
  induction stack with
  | nil =>
    intro cs inv removed hcs
    have h0 : cs = 0 := by simpa [sumSizes] using hcs
    simp [discardLoop, h0]
    omega
  | cons a rest ih =>
    intro cs inv removed hcs
    obtain ⟨key, value⟩ := a
    by_cases hc : os + cs ≥ limit
    · by_cases hr : fs.removeOk key
      · by_cases hcl : fs.cleanupOk key
        · simp only [discardLoop, if_pos hc, if_pos hr, if_pos hcl]
          apply ih
          have hcs2 : cs = value.size + sumSizes rest := by
            rw [hcs, sumSizes_cons]
          omega
        · simp [discardLoop, hc, hr, hcl]
      · simp [discardLoop, hc, hr]
    · simp [discardLoop, hc]

/-- The stack handed to the eviction loop by `discard_until` is a permutation
of the inventory. -/
theorem discardStack_perm (inv : List Entry) :
    List.Perm
      ((sortByStable (fun x y => decide (y.2.last_used < x.2.last_used)) inv).reverse)
      inv :=
  (List.reverse_perm _).trans (sortByStable_perm _ inv)

theorem mem_insertStable {lt : α → α → Bool} {a x : α} {l : List α}
    (h : x ∈ insertStable lt a l) : x = a ∨ x ∈ l := by
  have hs := (insertStable_perm lt a l).subset h
  simpa using hs

theorem insertStable_pairwise_ge (a : Entry) (l : List Entry)
    (h : l.Pairwise (fun x y => y.2.last_used ≤ x.2.last_used)) :
    (insertStable (fun x y => decide (y.2.last_used < x.2.last_used)) a l).Pairwise
      (fun x y => y.2.last_used ≤ x.2.last_used) := by
  induction l with
  | nil => simp [insertStable]
  | cons b t ih =>
    rcases List.pairwise_cons.mp h with ⟨hb, ht⟩
    by_cases hba : a.2.last_used < b.2.last_used
    · rw [insertStable, if_pos (by simpa using hba), List.pairwise_cons]
      refine ⟨?_, ih ht⟩
      intro x hx
      rcases mem_insertStable hx with rfl | hxt
      · omega
      · exact hb x hxt
    · rw [insertStable, if_neg (by simpa using hba), List.pairwise_cons]
      refine ⟨?_, h⟩
      intro x hx
      rcases List.mem_cons.mp hx with rfl | hxt
      · omega
      · have hxb := hb x hxt
        omega

/-- The sort performed by `discard_until` orders entries by non-increasing
`last_used`. -/
theorem sortByStable_sorted_ge (l : List Entry) :
    (sortByStable (fun x y => decide (y.2.last_used < x.2.last_used)) l).Pairwise
      (fun x y => y.2.last_used ≤ x.2.last_used) := by
  induction l with
  | nil => simp [sortByStable]
  | cons a t ih =>
    rw [sortByStable]
    exact insertStable_pairwise_ge a _ ih

/-- With pairwise-distinct `last_used` values, the reversed eviction stack is
strictly increasing in `last_used` (oldest first). -/
theorem discardStack_sorted_lt (inv : List Entry)
    (hd : inv.Pairwise (fun a b => a.2.last_used ≠ b.2.last_used)) :
    ((sortByStable (fun x y => decide (y.2.last_used < x.2.last_used)) inv).reverse).Pairwise
      (fun x y => x.2.last_used < y.2.last_used) := by
  have hge := sortByStable_sorted_ge inv
  have hne : (sortByStable (fun x y => decide (y.2.last_used < x.2.last_used)) inv).Pairwise
      (fun a b => a.2.last_used ≠ b.2.last_used) :=
    ((sortByStable_perm _ inv).pairwise_iff (fun h => h.symm)).mpr hd
  have hgt : (sortByStable (fun x y => decide (y.2.last_used < x.2.last_used)) inv).Pairwise
      (fun x y => y.2.last_used < x.2.last_used) := by
    refine (hge.and hne).imp ?_
    intro a b hab
    omega
  exact List.pairwise_reverse.mpr hgt

/-! ## Claims C6, C7, C10: eviction -/

/-- C6: for every inventory, budget, and prospective size strictly less than
the budget, after `discard_until` returns success, the prospective size plus
the sum of the sizes of all remaining entries is strictly less than the
budget. -/
theorem discard_until_budget {fs : FsModel} {os limit : Nat}
    {inv inv2 removed : List Entry}
    (hn : keysNodup inv) (hlt : os < limit)
    (h : discard_until fs os limit inv = .ok inv2 removed) :
    os + sumSizes inv2 < limit := by
  have hge : ¬ os ≥ limit := by omega
  simp only [discard_until, if_neg hge] at h
  obtain ⟨k, -, hp2, hbud, -⟩ :=
    discardLoop_ok_spec fs os limit _ _ _ _ _ _ (discardStack_perm inv) hn
      (sumSizes_perm (discardStack_perm inv)).symm h
  rw [sumSizes_perm hp2]
  exact hbud

theorem discard_until_budget_witness :
    9 + sumSizes [((⟨1, 2⟩ : CommandInputHashes), (⟨100, 4⟩ : LastUsedAndSize))] < 14 :=
  @discard_until_budget ⟨fun _ => true, fun _ => true⟩ 9 14
    [(⟨1, 2⟩, ⟨100, 4⟩), (⟨2, 3⟩, ⟨50, 5⟩)] [(⟨1, 2⟩, ⟨100, 4⟩)] [(⟨2, 3⟩, ⟨50, 5⟩)]
    (by decide) (by decide) (by decide)

/-- C7: with pairwise-distinct `last_used` values and a prospective size below
the budget, a successful `discard_until` evicts entries in strictly increasing
`last_used` order, every evicted entry is older than every remaining entry (so
each eviction took the oldest remaining entry), and it stops as soon as the
budget condition is met: the final state satisfies the budget, while just
before the last eviction it did not. -/
theorem discard_until_lru {fs : FsModel} {os limit : Nat}
    {inv inv2 removed : List Entry}
    (hn : keysNodup inv)
    (hd : inv.Pairwise (fun a b => a.2.last_used ≠ b.2.last_used))
    (hlt : os < limit)
    (h : discard_until fs os limit inv = .ok inv2 removed) :
    removed.Pairwise (fun a b => a.2.last_used < b.2.last_used) ∧
    (∀ a ∈ removed, ∀ b ∈ inv2, a.2.last_used < b.2.last_used) ∧
    os + sumSizes inv2 < limit ∧
    (∀ e, removed.getLast? = some e → limit ≤ os + sumSizes inv2 + e.2.size) := by
  have hge : ¬ os ≥ limit := by omega
  simp only [discard_until, if_neg hge] at h
  obtain ⟨k, hrem, hp2, hbud, hlast⟩ :=
    discardLoop_ok_spec fs os limit _ _ _ _ _ _ (discardStack_perm inv) hn
      (sumSizes_perm (discardStack_perm inv)).symm h
  have hasc := discardStack_sorted_lt inv hd
  rw [List.nil_append] at hrem
  subst hrem
  have hsplit : List.Pairwise (fun x y : Entry => x.2.last_used < y.2.last_used)
      (List.take k ((sortByStable (fun x y => decide (y.2.last_used < x.2.last_used)) inv).reverse) ++
        List.drop k ((sortByStable (fun x y => decide (y.2.last_used < x.2.last_used)) inv).reverse)) := by
    rw [List.take_append_drop]
    exact hasc
  refine ⟨?_, ?_, ?_, ?_⟩
  · exact hasc.sublist (List.take_sublist k _)
  · intro a ha b hb
    exact (List.pairwise_append.mp hsplit).2.2 a ha b (hp2.subset hb)
  · rw [sumSizes_perm hp2]
    exact hbud
  · intro e he
    rw [sumSizes_perm hp2]
    exact hlast e he

theorem discard_until_lru_witness :
    ([((⟨2, 3⟩ : CommandInputHashes), (⟨50, 5⟩ : LastUsedAndSize)), (⟨1, 2⟩, ⟨100, 4⟩)].Pairwise
      (fun a b => a.2.last_used < b.2.last_used)) ∧
    (∀ a ∈ [((⟨2, 3⟩ : CommandInputHashes), (⟨50, 5⟩ : LastUsedAndSize)), (⟨1, 2⟩, ⟨100, 4⟩)],
      ∀ b ∈ ([] : List Entry), a.2.last_used < b.2.last_used) ∧
    9 + sumSizes [] < 10 ∧
    (∀ e, ([((⟨2, 3⟩ : CommandInputHashes), (⟨50, 5⟩ : LastUsedAndSize)),
        (⟨1, 2⟩, ⟨100, 4⟩)].getLast? = some e) →
      10 ≤ 9 + sumSizes [] + e.2.size) :=
  @discard_until_lru ⟨fun _ => true, fun _ => true⟩ 9 10
    [(⟨1, 2⟩, ⟨100, 4⟩), (⟨2, 3⟩, ⟨50, 5⟩)] [] [(⟨2, 3⟩, ⟨50, 5⟩), (⟨1, 2⟩, ⟨100, 4⟩)]
    (by decide) (by decide) (by decide) (by decide)

/-- C10: with an output size strictly below the limit, the eviction loop never
pops from an empty entry list — the "Ran out of cache entries" panic is
unreachable, because the running `cache_size` always equals the sum of the
sizes of the entries still in the list, making the loop condition false once
the list is empty. -/
theorem discard_until_no_panic (fs : FsModel) (os limit : Nat) (inv : List Entry)
    (hlt : os < limit) :
    discard_until fs os limit inv ≠ .panicked := by
  by_cases hge : os ≥ limit
  · omega
  · simp only [discard_until, if_neg hge]
    exact discardLoop_ne_panicked fs os limit hlt _ _ inv []
      (sumSizes_perm (discardStack_perm inv)).symm

theorem discard_until_no_panic_witness :
    discard_until ⟨fun _ => true, fun _ => true⟩ 9 10
      [(⟨1, 2⟩, ⟨100, 4⟩), (⟨2, 3⟩, ⟨50, 5⟩)] ≠ .panicked :=
  discard_until_no_panic ⟨fun _ => true, fun _ => true⟩ 9 10
    [(⟨1, 2⟩, ⟨100, 4⟩), (⟨2, 3⟩, ⟨50, 5⟩)] (by decide)

/-! ## Claims C8, C9: restore failure handling and dry-run frame -/

/-- A failed restore (corrupt or missing archive) returns `false` with the
inventory — in particular the entry's `last_used` — unchanged. -/
theorem try_restore_corrupt {inv : List Entry} {k : CommandInputHashes}
    {v : LastUsedAndSize} {now : Nat} (hmem : lookupKey k inv = some v) :
    try_restore_from_cache inv k false false now = (false, inv) := by
  unfold try_restore_from_cache
  rw [hmem]
  simp

/-- A dry-run restore returns `false` and leaves the inventory unchanged. -/
theorem try_restore_dry {inv : List Entry} {k : CommandInputHashes}
    {unpack_ok : Bool} {now : Nat} :
    try_restore_from_cache inv k true unpack_ok now = (false, inv) := by
  unfold try_restore_from_cache
  cases hl : lookupKey k inv <;> simp

/-- C8: when the run's key is present in the inventory but its archive cannot
be opened or decoded, the restore attempt behaves exactly like a cache miss
and not like a hard error: `try_restore_from_cache` returns `false` with the
entry's `last_used` unchanged, the wrapped command runs, and on its success
`write_to_cache` overwrites the archive at the same key's address and `main`
returns success. -/
theorem corrupt_archive_is_miss {env : RunEnv} {k : CommandInputHashes}
    {inv : List Entry} {v : LastUsedAndSize} {os : Nat} {inv2 removed : List Entry}
    (hdry : env.dry_run = false) (hunp : env.unpack_ok = false)
    (hkey : env.key = some k) (hinv : env.inventory = some inv)
    (hmem : lookupKey k inv = some v)
    (hspawn : env.spawn_ok = true) (hchild : env.child_success = true)
    (hos : env.output_size = some os) (hpack : env.pack_ok = true)
    (hdisc : discard_until env.fs os env.max_cache_size inv = .ok inv2 removed) :
    try_restore_from_cache inv k env.dry_run env.unpack_ok env.now = (false, inv) ∧
    (mainModel env).commandRan = true ∧
    (mainModel env).archiveWrites = [k] ∧
    (mainModel env).outcome = .success := by
  have hres2 : try_restore_from_cache inv k false false env.now = (false, inv) :=
    try_restore_corrupt hmem
  have hres : try_restore_from_cache inv k env.dry_run env.unpack_ok env.now = (false, inv) := by
    rw [hdry, hunp]
    exact hres2
  have hmain : mainModel env = ⟨.success, true, false, some inv2, [k], removed⟩ := by
    simp [mainModel, mainCommandPhase, mainEpilogue, hkey, hinv, hres2, hdry, hunp,
      hspawn, hchild, hos, hdisc, hpack]
  exact ⟨hres, by rw [hmain], by rw [hmain], by rw [hmain]⟩

theorem corrupt_archive_is_miss_witness :
    try_restore_from_cache [((⟨1, 0⟩ : CommandInputHashes), (⟨50, 5⟩ : LastUsedAndSize))]
        ⟨1, 0⟩ false false 7 = (false, [(⟨1, 0⟩, ⟨50, 5⟩)]) ∧
    (mainModel ⟨false, some ⟨1, 0⟩, some [(⟨1, 0⟩, ⟨50, 5⟩)], false, true, true, 0,
      some 1, 100, ⟨fun _ => true, fun _ => true⟩, true, 7⟩).commandRan = true ∧
    (mainModel ⟨false, some ⟨1, 0⟩, some [(⟨1, 0⟩, ⟨50, 5⟩)], false, true, true, 0,
      some 1, 100, ⟨fun _ => true, fun _ => true⟩, true, 7⟩).archiveWrites = [⟨1, 0⟩] ∧
    (mainModel ⟨false, some ⟨1, 0⟩, some [(⟨1, 0⟩, ⟨50, 5⟩)], false, true, true, 0,
      some 1, 100, ⟨fun _ => true, fun _ => true⟩, true, 7⟩).outcome = .success :=
  @corrupt_archive_is_miss
    ⟨false, some ⟨1, 0⟩, some [(⟨1, 0⟩, ⟨50, 5⟩)], false, true, true, 0,
      some 1, 100, ⟨fun _ => true, fun _ => true⟩, true, 7⟩
    ⟨1, 0⟩ [(⟨1, 0⟩, ⟨50, 5⟩)] ⟨50, 5⟩ 1 [(⟨1, 0⟩, ⟨50, 5⟩)] []
    rfl rfl rfl rfl (by decide) rfl rfl rfl rfl (by decide)

/-- C9: with the dry-run option set, `main` computes the fingerprint but has no
cache or process side effects — the wrapped command is not executed, nothing is
restored, no archive is written, no entry is evicted, and the inventory
(including every entry's `last_used` and `size`) is left unchanged. -/
theorem dry_run_frame (env : RunEnv) (h : env.dry_run = true) :
    (mainModel env).commandRan = false ∧
    (mainModel env).restored = false ∧
    (mainModel env).finalInv = env.inventory ∧
    (mainModel env).archiveWrites = [] ∧
    (mainModel env).evicted = [] := by
  rcases hkey : env.key with _ | k <;> rcases hinv : env.inventory with _ | inv
  · simp [mainModel, mainCommandPhase, mainEpilogue, hkey, hinv, h]
  · simp [mainModel, mainCommandPhase, mainEpilogue, hkey, hinv, h]
  · simp [mainModel, mainCommandPhase, mainEpilogue, hkey, hinv, h]
  · have hres2 : try_restore_from_cache inv k true env.unpack_ok env.now = (false, inv) :=
      try_restore_dry
    rcases hos : env.output_size with _ | os <;>
      simp [mainModel, mainCommandPhase, mainEpilogue, hkey, hinv, h, hres2, hos]

/-! ## Claims C1-C5 -/

/-- C1 is violated by the code: with the output tree's size equal to the
budget, `discard_until` returns success without evicting (first conjunct), but
`main` then calls `write_to_cache` unconditionally, so the archive for the key
IS written (second conjunct, `archiveWrites = [⟨1, 0⟩]`); and on a repeated run
whose reconciled inventory contains the oversized entry, the restore hits and
the command is not executed (third conjunct), contradicting "output is never
cached across any number of repeated runs". -/
theorem oversized_output_written :
    discard_until ⟨fun _ => true, fun _ => true⟩ 10 10 [] = .ok [] [] ∧
    mainModel ⟨false, some ⟨1, 0⟩, some [], true, true, true, 0, some 10, 10,
      ⟨fun _ => true, fun _ => true⟩, true, 0⟩ =
      ⟨.success, true, false, some [], [⟨1, 0⟩], []⟩ ∧
    mainModel ⟨false, some ⟨1, 0⟩, some [(⟨1, 0⟩, ⟨5, 10⟩)], true, true, true, 0,
      some 10, 10, ⟨fun _ => true, fun _ => true⟩, true, 9⟩ =
      ⟨.success, false, true, some [(⟨1, 0⟩, ⟨9, 10⟩)], [], []⟩ :=
  ⟨by decide, by decide, by decide⟩

/-- C2 as stated is false on the code: here the wrapped command has already
exited with status zero (`child_success = true`, `commandRan = true`), the
eviction step's `fs::remove_file` fails, and `main` propagates the error with
`?`, terminating with an error instead of reporting success. -/
theorem io_error_fails_run_cex :
    mainModel ⟨false, some ⟨1, 0⟩, some [(⟨2, 3⟩, ⟨50, 5⟩)], true, true, true, 0,
      some 6, 10, ⟨fun _ => false, fun _ => true⟩, true, 0⟩ =
      ⟨.mainError, true, false, some [(⟨2, 3⟩, ⟨50, 5⟩)], [], []⟩ := by
  decide

/-- C2 (amended): an `IoError` during the caching step after a successful
command run — whether while evicting (deleting an archive or cleaning up its
shard directory) or while packing the output — propagates out of `main`, so the
process terminates reporting an error even though the command succeeded. -/
theorem io_error_fails_run {env : RunEnv} {k : CommandInputHashes}
    {inv : List Entry} {os : Nat}
    (hdry : env.dry_run = false)
    (hkey : env.key = some k) (hinv : env.inventory = some inv)
    (hmiss : try_restore_from_cache inv k false env.unpack_ok env.now = (false, inv))
    (hspawn : env.spawn_ok = true) (hchild : env.child_success = true)
    (hos : env.output_size = some os)
    (herr : discard_until env.fs os env.max_cache_size inv = .ioError ∨
      (env.pack_ok = false ∧ ∃ inv2 removed,
        discard_until env.fs os env.max_cache_size inv = .ok inv2 removed)) :
    (mainModel env).outcome = .mainError ∧ (mainModel env).commandRan = true := by
  rcases herr with herr | ⟨hpk, inv2, removed, hok⟩
  · have hmain : mainModel env = ⟨.mainError, true, false, some inv, [], []⟩ := by
      simp [mainModel, mainCommandPhase, mainEpilogue, hkey, hinv, hmiss, hdry,
        hspawn, hchild, hos, herr]
    exact ⟨by rw [hmain], by rw [hmain]⟩
  · have hmain : mainModel env = ⟨.mainError, true, false, some inv2, [k], removed⟩ := by
      simp [mainModel, mainCommandPhase, mainEpilogue, hkey, hinv, hmiss, hdry,
        hspawn, hchild, hos, hok, hpk]
    exact ⟨by rw [hmain], by rw [hmain]⟩

theorem io_error_fails_run_witness :
    (mainModel ⟨false, some ⟨1, 0⟩, some [(⟨2, 3⟩, ⟨50, 5⟩)], true, true, true, 0,
      some 6, 10, ⟨fun _ => false, fun _ => true⟩, true, 0⟩).outcome = .mainError ∧
    (mainModel ⟨false, some ⟨1, 0⟩, some [(⟨2, 3⟩, ⟨50, 5⟩)], true, true, true, 0,
      some 6, 10, ⟨fun _ => false, fun _ => true⟩, true, 0⟩).commandRan = true :=
  @io_error_fails_run
    ⟨false, some ⟨1, 0⟩, some [(⟨2, 3⟩, ⟨50, 5⟩)], true, true, true, 0,
      some 6, 10, ⟨fun _ => false, fun _ => true⟩, true, 0⟩
    ⟨1, 0⟩ [(⟨2, 3⟩, ⟨50, 5⟩)] 6
    rfl rfl rfl (by decide) rfl rfl rfl (Or.inl (by decide))

/-- C3 is violated by the code: `to_path` formats `input_hash` with `{:x}`,
which does not zero-pad, while the reconciliation regex demands exactly 16
class characters before the extension.  For `input_hash = 0` the produced path
is `.folca_cache/1/0.tar.gz` and parsing it fails, so the entry can never be
reconciled; a full-width `input_hash` (at least `2 ^ 60`) round-trips fine,
isolating the missing padding as the cause. -/
theorem reconciliation_misses_short_hash :
    to_path ".folca_cache" ⟨1, 0⟩ = ".folca_cache/1/0.tar.gz" ∧
    load_entry_parse (to_path ".folca_cache" ⟨1, 0⟩) = none ∧
    load_entry_parse (to_path ".folca_cache" ⟨1, 2 ^ 63⟩) = some (1, 2 ^ 63) :=
  ⟨by decide, by decide, by decide⟩

/-- C4 is violated by the code: the command hasher receives each argument's
bytes with no separator or length framing, so the distinct arguments `"ab"` and
`"abab"` (bytes `[97, 98]` and `[97, 98, 97, 98]`) produce the same
concatenated stream in either order, and swapping them leaves `command_hash`
unchanged. -/
theorem command_hash_swap_collision :
    ([97, 98] : List Nat) ≠ [97, 98, 97, 98] ∧
    command_hash_of [[97, 98], [97, 98, 97, 98]] =
      command_hash_of [[97, 98, 97, 98], [97, 98]] :=
  ⟨by decide, rfl⟩

/-- C5 is violated by the code: `Opt::command_input_key` passes `include_hidden`
straight to `WalkBuilder::hidden`, which ENABLES skipping of hidden entries, so
a hidden file (path bytes `[46, 97]`, i.e. `.a`) is walked exactly when the
include-hidden option is NOT set (first two conjuncts); consequently, with the
option set, modifying the hidden file's content leaves `input_hash` unchanged
(third conjunct), while with the option unset the hasher's input stream does
change (fourth conjunct). -/
theorem include_hidden_inverted :
    walk_keeps true false ⟨[46, 97], false, [1], true, false, false, false⟩ = false ∧
    walk_keeps false false ⟨[46, 97], false, [1], true, false, false, false⟩ = true ∧
    input_hash_of true false
        [⟨[46, 97], false, [1], true, false, false, false⟩,
          ⟨[98], false, [2], false, false, false, false⟩] =
      input_hash_of true false
        [⟨[46, 97], false, [9, 9], true, false, false, false⟩,
          ⟨[98], false, [2], false, false, false, false⟩] ∧
    input_stream false false [⟨[46, 97], false, [1], true, false, false, false⟩] ≠
      input_stream false false [⟨[46, 97], false, [9, 9], true, false, false, false⟩] := by
  refine ⟨by decide, by decide, ?_, by decide⟩
  show sipHash13 (input_stream true false _) = sipHash13 (input_stream true false _)
  exact congrArg sipHash13 (by decide)

theorem dry_run_frame_witness :
    (mainModel ⟨true, some ⟨1, 0⟩, some [(⟨1, 0⟩, ⟨50, 5⟩)], true, true, true, 0,
      some 1, 100, ⟨fun _ => true, fun _ => true⟩, true, 7⟩).commandRan = false ∧
    (mainModel ⟨true, some ⟨1, 0⟩, some [(⟨1, 0⟩, ⟨50, 5⟩)], true, true, true, 0,
      some 1, 100, ⟨fun _ => true, fun _ => true⟩, true, 7⟩).restored = false ∧
    (mainModel ⟨true, some ⟨1, 0⟩, some [(⟨1, 0⟩, ⟨50, 5⟩)], true, true, true, 0,
      some 1, 100, ⟨fun _ => true, fun _ => true⟩, true, 7⟩).finalInv =
      some [(⟨1, 0⟩, ⟨50, 5⟩)] ∧
    (mainModel ⟨true, some ⟨1, 0⟩, some [(⟨1, 0⟩, ⟨50, 5⟩)], true, true, true, 0,
      some 1, 100, ⟨fun _ => true, fun _ => true⟩, true, 7⟩).archiveWrites = [] ∧
    (mainModel ⟨true, some ⟨1, 0⟩, some [(⟨1, 0⟩, ⟨50, 5⟩)], true, true, true, 0,
      some 1, 100, ⟨fun _ => true, fun _ => true⟩, true, 7⟩).evicted = [] :=
  dry_run_frame
    ⟨true, some ⟨1, 0⟩, some [(⟨1, 0⟩, ⟨50, 5⟩)], true, true, true, 0,
      some 1, 100, ⟨fun _ => true, fun _ => true⟩, true, 7⟩ rfl

end Folca
